import Mathlib

/-!
# Verification of the beat-synchronized video assembly pipeline

Shallow embedding of the algorithmic core of `server.js`: the clip
assignment engine, the beat-interval derivation, the segment renderer's
control flow, the validation step, the frame-rate conformance check and
the progress reporter.  Durations and timestamps are modelled as exact
rationals; external processes (ffmpeg/ffprobe, the filesystem) are
modelled by their observable effects or by their outcomes passed in as
data.
-/

namespace VideoEditor

/-! ## Clip assignment engine (`/process-videos`, assignment loop)

The pool is a list of clip durations; `order` is the list of pool
indices in the order the scan visits them (`List.range pool.length` in
the non-randomized branch, a shuffled copy in the randomized branch).
`used` is the set of already-consumed pool indices, modelled as a list.
-/

/-- One step of the best-fit scan: mirrors the loop body
`if (usedClipIndices.has(i)) continue; if (clipDuration >= duration) { ... }`
with the accumulator holding `(bestClip.index, minDurationDiff)`;
`none` stands for `bestClip = null / minDurationDiff = Infinity`. -/
def scanStep (clips : List ℚ) (used : List ℕ) (d : ℚ)
    (acc : Option (ℕ × ℚ)) (i : ℕ) : Option (ℕ × ℚ) :=
  if i ∈ used then acc
  else if d ≤ clips.getD i 0 then
    match acc with
    | none => some (i, clips.getD i 0 - d)
    | some p =>
      if clips.getD i 0 - d < p.2 then some (i, clips.getD i 0 - d) else acc
  else acc

/-- The inner best-fit scan over the candidate order. -/
def bestFitScan (clips : List ℚ) (order used : List ℕ) (d : ℚ) :
    Option (ℕ × ℚ) :=
  order.foldl (scanStep clips used d) none

/-- Fallback: `for (i ...) if (!usedClipIndices.has(i)) { bestClip = i; break }`. -/
def firstUnused (order used : List ℕ) : Option ℕ :=
  order.find? (fun i => !(used.contains i))

/-- The per-interval clip choice: best-fit scan, then the fallback scan. -/
def chooseClip (clips : List ℚ) (order used : List ℕ) (d : ℚ) : Option ℕ :=
  match bestFitScan clips order used d with
  | some p => some p.1
  | none => firstUnused order used

/-- The assignment loop over the intervals, in input order.  `none`
models the thrown `Error('No suitable clip available for beat duration')`. -/
def assignLoop (clips : List ℚ) (order : List ℕ) :
    List ℚ → List ℕ → Option (List ℕ)
  | [], _ => some []
  | d :: ds, used =>
    match chooseClip clips order used d with
    | none => none
    | some i =>
      match assignLoop clips order ds (i :: used) with
      | none => none
      | some rest => some (i :: rest)

/-- The non-randomized assignment: candidates are scanned in pool order. -/
def assignClips (clips : List ℚ) (durations : List ℚ) : Option (List ℕ) :=
  assignLoop clips (List.range clips.length) durations []

/-! ## Beat-interval derivation (`/process-videos`, durations computation) -/

/-- `for (i = 0; i < beats.length - 1; i++) durations.push(beats[i+1]-beats[i]);
durations.push(2.0);` -/
def computeDurations (beats : List ℚ) : List ℚ :=
  ((List.range (beats.length - 1)).map
    (fun i => beats.getD (i + 1) 0 - beats.getD i 0)) ++ [2]

/-! ### Invariant of the best-fit scan -/

/-- What the best-fit scan accumulator means after visiting pool indices
`0, …, n-1`: `none` iff no qualifying (unused and long-enough) index was
seen; otherwise it holds the first index attaining the minimal surplus. -/
def ScanOut (clips : List ℚ) (used : List ℕ) (d : ℚ) (n : ℕ) :
    Option (ℕ × ℚ) → Prop
  | none => ∀ i, i < n → i ∈ used ∨ clips.getD i 0 < d
  | some (j, m) =>
      j < n ∧ j ∉ used ∧ d ≤ clips.getD j 0 ∧ m = clips.getD j 0 - d ∧
      (∀ i, i < n → i ∉ used → d ≤ clips.getD i 0 → m ≤ clips.getD i 0 - d) ∧
      (∀ i, i < j → i ∉ used → d ≤ clips.getD i 0 → m < clips.getD i 0 - d)

theorem scanOut_spec (clips : List ℚ) (used : List ℕ) (d : ℚ) (n : ℕ) :
    ScanOut clips used d n ((List.range n).foldl (scanStep clips used d) none) := by
  induction n with
  | zero =>
    simp only [List.range_zero, List.foldl_nil, ScanOut]
    intro i hi
    omega
  | succ n ih =>
    rw [List.range_succ, List.foldl_append, List.foldl_cons, List.foldl_nil]
    cases h : (List.range n).foldl (scanStep clips used d) none with
    | none =>
      rw [h] at ih
      by_cases hu : n ∈ used
      · have hstep : scanStep clips used d none n = none := by
          unfold scanStep; rw [if_pos hu]
        rw [hstep]
        intro i hi
        rcases Nat.lt_succ_iff_lt_or_eq.mp hi with h' | rfl
        · exact ih i h'
        · exact Or.inl hu
      · by_cases hd : d ≤ clips.getD n 0
        · have hstep : scanStep clips used d none n
              = some (n, clips.getD n 0 - d) := by
            unfold scanStep; rw [if_neg hu, if_pos hd]
          rw [hstep]
          refine ⟨Nat.lt_succ_self n, hu, hd, rfl, ?_, ?_⟩
          · intro i hi hiu hid
            rcases Nat.lt_succ_iff_lt_or_eq.mp hi with h' | rfl
            · exact absurd (ih i h') (by push_neg; exact ⟨hiu, hid⟩)
            · exact le_refl _
          · intro i hij hiu hid
            exact absurd (ih i hij) (by push_neg; exact ⟨hiu, hid⟩)
        · have hstep : scanStep clips used d none n = none := by
            unfold scanStep; rw [if_neg hu, if_neg hd]
          rw [hstep]
          intro i hi
          rcases Nat.lt_succ_iff_lt_or_eq.mp hi with h' | rfl
          · exact ih i h'
          · exact Or.inr (not_le.mp hd)
    | some p =>
      obtain ⟨j, m⟩ := p
      rw [h] at ih
      obtain ⟨hjn, hju, hjd, hm, hmin, hfirst⟩ := ih
      by_cases hu : n ∈ used
      · have hstep : scanStep clips used d (some (j, m)) n = some (j, m) := by
          unfold scanStep; rw [if_pos hu]
        rw [hstep]
        refine ⟨Nat.lt_succ_of_lt hjn, hju, hjd, hm, ?_, hfirst⟩
        intro i hi hiu hid
        rcases Nat.lt_succ_iff_lt_or_eq.mp hi with h' | rfl
        · exact hmin i h' hiu hid
        · exact absurd hu hiu
      · by_cases hd : d ≤ clips.getD n 0
        · by_cases hlt : clips.getD n 0 - d < m
          · have hstep : scanStep clips used d (some (j, m)) n
                = some (n, clips.getD n 0 - d) := by
              unfold scanStep; rw [if_neg hu, if_pos hd]
              exact if_pos hlt
            rw [hstep]
            refine ⟨Nat.lt_succ_self n, hu, hd, rfl, ?_, ?_⟩
            · intro i hi hiu hid
              rcases Nat.lt_succ_iff_lt_or_eq.mp hi with h' | rfl
              · exact le_of_lt (lt_of_lt_of_le hlt (hmin i h' hiu hid))
              · exact le_refl _
            · intro i hin hiu hid
              exact lt_of_lt_of_le hlt (hmin i hin hiu hid)
          · have hstep : scanStep clips used d (some (j, m)) n = some (j, m) := by
              unfold scanStep; rw [if_neg hu, if_pos hd]
              exact if_neg hlt
            rw [hstep]
            refine ⟨Nat.lt_succ_of_lt hjn, hju, hjd, hm, ?_, hfirst⟩
            intro i hi hiu hid
            rcases Nat.lt_succ_iff_lt_or_eq.mp hi with h' | rfl
            · exact hmin i h' hiu hid
            · exact not_lt.mp hlt
        · have hstep : scanStep clips used d (some (j, m)) n = some (j, m) := by
            unfold scanStep; rw [if_neg hu, if_neg hd]
          rw [hstep]
          refine ⟨Nat.lt_succ_of_lt hjn, hju, hjd, hm, ?_, hfirst⟩
          intro i hi hiu hid
          rcases Nat.lt_succ_iff_lt_or_eq.mp hi with h' | rfl
          · exact hmin i h' hiu hid
          · exact absurd hid hd

/-- The scan invariant holds for the whole non-randomized scan. -/
theorem bestFitScan_range (clips : List ℚ) (used : List ℕ) (d : ℚ) (n : ℕ) :
    ScanOut clips used d n (bestFitScan clips (List.range n) used d) :=
  scanOut_spec clips used d n

/-- `find?` over `range' s n` returns the least element satisfying the
predicate, when one exists. -/
theorem find?_range'_least (p : ℕ → Bool) :
    ∀ n s j, (List.range' s n).find? p = some j →
      p j = true ∧ s ≤ j ∧ j < s + n ∧ ∀ i, s ≤ i → i < j → p i = false := by
  intro n
  induction n with
  | zero => intro s j h; simp at h
  | succ n ih =>
    intro s j h
    rw [List.range'_succ] at h
    by_cases hp : p s
    · rw [List.find?_cons_of_pos _ hp] at h
      obtain rfl : s = j := by injection h
      exact ⟨hp, le_refl _, by omega, fun i h1 h2 => by omega⟩
    · rw [List.find?_cons_of_neg _ hp] at h
      obtain ⟨h1, h2, h3, h4⟩ := ih (s + 1) j h
      refine ⟨h1, by omega, by omega, ?_⟩
      intro i hsi hij
      rcases Nat.eq_or_lt_of_le hsi with rfl | hsi'
      · exact Bool.not_eq_true _ ▸ (by simpa using hp)
      · exact h4 i hsi' hij

/-- The fallback scan returns the first not-yet-used pool index. -/
theorem firstUnused_range_spec (len : ℕ) (used : List ℕ) (j : ℕ) :
    firstUnused (List.range len) used = some j →
    j < len ∧ j ∉ used ∧ ∀ i, i < j → i ∈ used := by
  intro h
  rw [firstUnused, List.range_eq_range'] at h
  obtain ⟨h1, _, h3, h4⟩ := find?_range'_least _ len 0 j h
  refine ⟨by omega, ?_, ?_⟩
  · simpa using h1
  · intro i hij
    have := h4 i (Nat.zero_le i) hij
    simpa using this

end VideoEditor

namespace VideoEditor

/-- **C1** Non-randomized clip assignment: for each interval processed in
input order (a) if some not-yet-used clip is at least as long as the
interval, the chosen clip has the smallest non-negative surplus
`clipDuration - intervalDuration` among such clips; (b) if no unused clip
is long enough, the first not-yet-used clip in pool order is chosen;
(c) if no unused clip remains at all, the step fails with the assignment
error and the loop produces no assignment. -/
theorem c1_best_fit_assignment (clips : List ℚ) (used : List ℕ) (d : ℚ)
    (ds : List ℚ) :
    ((∃ i, i < clips.length ∧ i ∉ used ∧ d ≤ clips.getD i 0) →
      ∃ j, chooseClip clips (List.range clips.length) used d = some j ∧
        j < clips.length ∧ j ∉ used ∧ d ≤ clips.getD j 0 ∧
        ∀ i, i < clips.length → i ∉ used → d ≤ clips.getD i 0 →
          clips.getD j 0 - d ≤ clips.getD i 0 - d) ∧
    ((∀ i, i < clips.length → i ∉ used → clips.getD i 0 < d) →
     (∃ i, i < clips.length ∧ i ∉ used) →
      ∃ j, chooseClip clips (List.range clips.length) used d = some j ∧
        j < clips.length ∧ j ∉ used ∧ ∀ i, i < j → i ∈ used) ∧
    ((∀ i, i < clips.length → i ∈ used) →
      chooseClip clips (List.range clips.length) used d = none ∧
      assignLoop clips (List.range clips.length) (d :: ds) used = none) := by
  have hscan := bestFitScan_range clips used d clips.length
  refine ⟨?_, ?_, ?_⟩
  · rintro ⟨i, hi, hiu, hid⟩
    cases hbfs : bestFitScan clips (List.range clips.length) used d with
    | none =>
      rw [hbfs] at hscan
      rcases hscan i hi with h | h
      · exact absurd h hiu
      · exact absurd hid (not_le.mpr h)
    | some p =>
      obtain ⟨j, m⟩ := p
      rw [hbfs] at hscan
      obtain ⟨hjn, hju, hjd, hm, hmin, _⟩ := hscan
      refine ⟨j, ?_, hjn, hju, hjd, ?_⟩
      · rw [chooseClip, hbfs]
      · intro i' hi' hiu' hid'
        calc clips.getD j 0 - d = m := hm.symm
          _ ≤ clips.getD i' 0 - d := hmin i' hi' hiu' hid'
  · rintro hshort ⟨i, hi, hiu⟩
    have hnone : bestFitScan clips (List.range clips.length) used d = none := by
      cases hbfs : bestFitScan clips (List.range clips.length) used d with
      | none => rfl
      | some p =>
        obtain ⟨j, m⟩ := p
        rw [hbfs] at hscan
        obtain ⟨hjn, hju, hjd, _⟩ := hscan
        exact absurd hjd (not_le.mpr (hshort j hjn hju))
    cases hfu : firstUnused (List.range clips.length) used with
    | none =>
      rw [firstUnused, List.find?_eq_none] at hfu
      have := hfu i (List.mem_range.mpr hi)
      simp at this
      exact absurd this hiu
    | some j =>
      obtain ⟨hj1, hj2, hj3⟩ := firstUnused_range_spec clips.length used j hfu
      exact ⟨j, by rw [chooseClip, hnone]; exact hfu, hj1, hj2, hj3⟩
  · intro hall
    have hnone : bestFitScan clips (List.range clips.length) used d = none := by
      cases hbfs : bestFitScan clips (List.range clips.length) used d with
      | none => rfl
      | some p =>
        obtain ⟨j, m⟩ := p
        rw [hbfs] at hscan
        obtain ⟨hjn, hju, _⟩ := hscan
        exact absurd (hall j hjn) hju
    have hfu : firstUnused (List.range clips.length) used = none := by
      rw [firstUnused, List.find?_eq_none]
      intro x hx
      simp only [Bool.not_eq_true, Bool.not_eq_true']
      simpa using hall x (List.mem_range.mp hx)
    have hchoose : chooseClip clips (List.range clips.length) used d = none := by
      rw [chooseClip, hnone]; exact hfu
    exact ⟨hchoose, by rw [assignLoop, hchoose]⟩

/-- **C9** Tie-break in the non-randomized best-fit scan: when several
qualifying not-yet-used clips attain the minimal surplus `m`, the scan
keeps the first minimum encountered, so the winning index is the lowest
qualifying pool index; the winner is then the chosen clip. -/
theorem c9_tie_break_lowest_index (clips : List ℚ) (used : List ℕ)
    (d : ℚ) (j i : ℕ) (m : ℚ) :
    bestFitScan clips (List.range clips.length) used d = some (j, m) →
    i < clips.length → i ∉ used → d ≤ clips.getD i 0 →
    clips.getD i 0 - d = m →
    j ≤ i ∧ chooseClip clips (List.range clips.length) used d = some j := by
  intro hbfs hi hiu hid htie
  have hscan := bestFitScan_range clips used d clips.length
  rw [hbfs] at hscan
  obtain ⟨hjn, hju, hjd, hm, hmin, hfirst⟩ := hscan
  constructor
  · by_contra hij
    have := hfirst i (not_le.mp hij) hiu hid
    rw [htie] at this
    exact lt_irrefl m this
  · rw [chooseClip, hbfs]

/-- Witness for C1: pool `[5, 2]`, interval `1` — the best fit is clip 1
(surplus 1); with the whole pool consumed, the step and the loop fail. -/
theorem c1_best_fit_assignment_witness :
    (∃ i, i < ([(5:ℚ), 2]).length ∧ i ∉ ([] : List ℕ) ∧
      (1:ℚ) ≤ [(5:ℚ), 2].getD i 0) ∧
    (∃ j, chooseClip [(5:ℚ), 2] (List.range ([(5:ℚ), 2]).length) [] 1 = some j ∧
      j < ([(5:ℚ), 2]).length ∧ j ∉ ([] : List ℕ) ∧
      (1:ℚ) ≤ [(5:ℚ), 2].getD j 0 ∧
      ∀ i, i < ([(5:ℚ), 2]).length → i ∉ ([] : List ℕ) →
        (1:ℚ) ≤ [(5:ℚ), 2].getD i 0 →
        [(5:ℚ), 2].getD j 0 - 1 ≤ [(5:ℚ), 2].getD i 0 - 1) ∧
    (∀ i, i < ([(5:ℚ), 2]).length → i ∈ [0, 1]) ∧
    (chooseClip [(5:ℚ), 2] (List.range ([(5:ℚ), 2]).length) [0, 1] 1 = none ∧
      assignLoop [(5:ℚ), 2] (List.range ([(5:ℚ), 2]).length) [1] [0, 1] = none) := by
  refine ⟨⟨0, by norm_num⟩, (c1_best_fit_assignment [(5:ℚ), 2] [] 1 []).1 ⟨0, by norm_num⟩,
    by decide, (c1_best_fit_assignment [(5:ℚ), 2] [0, 1] 1 []).2.2 (by decide)⟩

/-- Witness for C9: pool `[3, 2, 2]`, interval `2` — clips 1 and 2 tie at
surplus 0 and the scan keeps the lower index 1. -/
theorem c9_tie_break_lowest_index_witness :
    bestFitScan [(3:ℚ), 2, 2] (List.range ([(3:ℚ), 2, 2]).length) [] 2
      = some (1, 0) ∧
    (1 ≤ 2 ∧ chooseClip [(3:ℚ), 2, 2]
      (List.range ([(3:ℚ), 2, 2]).length) [] 2 = some 1) := by
  have hbfs : bestFitScan [(3:ℚ), 2, 2] (List.range ([(3:ℚ), 2, 2]).length) [] 2
      = some (1, 0) := by
    norm_num [bestFitScan, scanStep, List.range_succ]
  exact ⟨hbfs, c9_tie_break_lowest_index [(3:ℚ), 2, 2] [] 2 1 2 0 hbfs
    (by norm_num) (by simp) (by norm_num) (by norm_num)⟩

/-! ### Assignment invariants (any candidate order) -/

/-- The best-fit scan never returns an already-used index, whatever the
candidate order (so in both the randomized and non-randomized branches). -/
theorem scan_acc_not_used (clips : List ℚ) (used : List ℕ) (d : ℚ) :
    ∀ (order : List ℕ) (acc : Option (ℕ × ℚ)),
      (∀ p, acc = some p → p.1 ∉ used) →
      ∀ q, order.foldl (scanStep clips used d) acc = some q → q.1 ∉ used := by
  intro order
  induction order with
  | nil =>
    intro acc hacc q hq
    rw [List.foldl_nil] at hq
    exact hacc q hq
  | cons i rest ih =>
    intro acc hacc q hq
    rw [List.foldl_cons] at hq
    refine ih (scanStep clips used d acc i) ?_ q hq
    intro p hp
    unfold scanStep at hp
    by_cases hu : i ∈ used
    · rw [if_pos hu] at hp
      exact hacc p hp
    · rw [if_neg hu] at hp
      by_cases hd : d ≤ clips.getD i 0
      · rw [if_pos hd] at hp
        cases acc with
        | none =>
          injection hp with h
          rw [← h]
          exact hu
        | some p' =>
          dsimp only at hp
          by_cases hlt : clips.getD i 0 - d < p'.2
          · rw [if_pos hlt] at hp
            injection hp with h
            rw [← h]
            exact hu
          · rw [if_neg hlt] at hp
            exact hacc p hp
      · rw [if_neg hd] at hp
        exact hacc p hp

/-- The per-interval choice never returns an already-used index. -/
theorem chooseClip_not_used (clips : List ℚ) (order used : List ℕ) (d : ℚ)
    (i : ℕ) : chooseClip clips order used d = some i → i ∉ used := by
  intro h
  rw [chooseClip] at h
  cases hbfs : bestFitScan clips order used d with
  | none =>
    rw [hbfs] at h
    rw [firstUnused] at h
    have := List.find?_some h
    simpa using this
  | some p =>
    rw [hbfs] at h
    injection h with h
    rw [← h]
    exact scan_acc_not_used clips used d order none (by intro q hq; cases hq) p hbfs

/-- Invariant of the assignment loop: on success the result has one entry
per interval, avoids every already-used index, and repeats no index. -/
theorem assignLoop_invariant (clips : List ℚ) (order : List ℕ) :
    ∀ (durs : List ℚ) (used res : List ℕ),
      assignLoop clips order durs used = some res →
      res.length = durs.length ∧ (∀ x ∈ res, x ∉ used) ∧ res.Nodup := by
  intro durs
  induction durs with
  | nil =>
    intro used res h
    rw [assignLoop] at h
    injection h with h
    rw [← h]
    simp
  | cons d ds ih =>
    intro used res h
    rw [assignLoop] at h
    cases hc : chooseClip clips order used d with
    | none =>
      rw [hc] at h
      cases h
    | some i =>
      rw [hc] at h
      dsimp only at h
      cases hr : assignLoop clips order ds (i :: used) with
      | none =>
        rw [hr] at h
        cases h
      | some rest =>
        rw [hr] at h
        injection h with h
        obtain ⟨hlen, hmem, hnd⟩ := ih (i :: used) rest hr
        have hi : i ∉ used := chooseClip_not_used clips order used d i hc
        rw [← h]
        refine ⟨by simp [hlen], ?_, ?_⟩
        · intro x hx
          rcases List.mem_cons.mp hx with rfl | hx'
          · exact hi
          · exact fun hxu => (hmem x hx') (List.mem_cons_of_mem _ hxu)
        · refine List.nodup_cons.mpr ⟨?_, hnd⟩
          intro hir
          exact (hmem i hir) (List.mem_cons_self i used)

end VideoEditor

namespace VideoEditor

/-- **C4** Any run of the assignment step (any candidate scan order, so
both the randomized and the non-randomized branch) that completes without
the assignment error yields exactly one entry per input interval, and no
pool clip index appears in more than one entry. -/
theorem c4_assignment_shape (clips : List ℚ) (order : List ℕ)
    (durations : List ℚ) (res : List ℕ) :
    assignLoop clips order durations [] = some res →
    res.length = durations.length ∧ res.Nodup := by
  intro h
  obtain ⟨h1, _, h3⟩ := assignLoop_invariant clips order durations [] res h
  exact ⟨h1, h3⟩

/-- Witness for C4: pool `[5, 2]`, intervals `[1, 3]` — the loop returns
`[1, 0]`, one clip per interval, no repetition. -/
theorem c4_assignment_shape_witness :
    assignLoop [(5:ℚ), 2] (List.range ([(5:ℚ), 2]).length) [1, 3] []
      = some [1, 0] ∧
    ([1, 0] : List ℕ).length = ([(1:ℚ), 3]).length ∧ ([1, 0] : List ℕ).Nodup := by
  have h : assignLoop [(5:ℚ), 2] (List.range ([(5:ℚ), 2]).length) [1, 3] []
      = some [1, 0] := by
    norm_num [assignLoop, chooseClip, bestFitScan, scanStep, firstUnused,
      List.range_succ]
  exact ⟨h, c4_assignment_shape [(5:ℚ), 2] _ [1, 3] [1, 0] h⟩


/-- **C2** For a beats array of `N ≥ 2` strictly increasing timestamps the
derived duration list has exactly `N` entries: entry `i` is
`beats[i+1] - beats[i]` for `i ∈ [0, N-2]` and the final entry is the
constant synthetic tail duration `2.0`. -/
theorem c2_durations_shape (beats : List ℚ) (h2 : 2 ≤ beats.length)
    (hmono : beats.Chain' (· < ·)) :
    (computeDurations beats).length = beats.length ∧
    (∀ i, i + 1 < beats.length →
      (computeDurations beats).getD i 0
        = beats.getD (i + 1) 0 - beats.getD i 0) ∧
    (computeDurations beats).getD (beats.length - 1) 0 = 2 := by
  refine ⟨?_, ?_, ?_⟩
  · simp only [computeDurations, List.length_append, List.length_map,
      List.length_range, List.length_cons, List.length_nil]
    omega
  · intro i hi
    have hi' : i < beats.length - 1 := by omega
    rw [computeDurations, List.getD_eq_getElem?_getD,
      List.getElem?_append_left (by simpa using hi'), List.getElem?_map,
      List.getElem?_range hi']
    rfl
  · rw [computeDurations, List.getD_eq_getElem?_getD,
      List.getElem?_append_right (by simp)]
    simp

/-- Witness for C2: beats `[0, 1, 3.5]` yield durations `[1, 2.5, 2]`. -/
theorem c2_durations_shape_witness :
    (2 ≤ ([(0:ℚ), 1, 7/2]).length ∧ ([(0:ℚ), 1, 7/2]).Chain' (· < ·)) ∧
    ((computeDurations [(0:ℚ), 1, 7/2]).length = ([(0:ℚ), 1, 7/2]).length ∧
      (∀ i, i + 1 < ([(0:ℚ), 1, 7/2]).length →
        (computeDurations [(0:ℚ), 1, 7/2]).getD i 0
          = [(0:ℚ), 1, 7/2].getD (i + 1) 0 - [(0:ℚ), 1, 7/2].getD i 0) ∧
      (computeDurations [(0:ℚ), 1, 7/2]).getD (([(0:ℚ), 1, 7/2]).length - 1) 0
        = 2) := by
  have hmono : ([(0:ℚ), 1, 7/2]).Chain' (· < ·) := by
    norm_num [List.chain'_cons, List.chain'_singleton]
  exact ⟨⟨by norm_num, hmono⟩,
    c2_durations_shape [(0:ℚ), 1, 7/2] (by norm_num) hmono⟩

end VideoEditor

namespace VideoEditor

/-! ## Segment renderer (`/process-videos`, per-clip render loop)

The per-segment control flow is a straight-line sequence of external
ffmpeg invocations and file removals; we embed it as the list of
steps the loop body issues for one assigned clip. -/

/-- One observable step of the segment renderer. -/
inductive RenderStep where
  /-- `setStartTime(start).setDuration(dur)` re-encode of `src` into `dst`. -/
  | trim (src dst : String) (start dur : ℚ) : RenderStep
  /-- full re-encode of `src` into `dst` (no trim): the forward pass. -/
  | encodeFull (src dst : String) : RenderStep
  /-- `videoFilters('reverse')` + `audioFilters('areverse')` re-encode:
  both video and audio sample order reversed. -/
  | reverseAV (src dst : String) : RenderStep
  /-- `fs.writeFile` of the concat list file with the given entries. -/
  | writeList (dst : String) (entries : List String) : RenderStep
  /-- `-f concat` run over the list file into `dst`. -/
  | concatFiles (listFile dst : String) : RenderStep
  /-- `fs.unlink` of an intermediate file. -/
  | removeFile (path : String) : RenderStep
deriving DecidableEq

/-- `path.join(sessionTempDir, 'trimmed_i.mp4')` -/
def trimmedPath (dir : String) (i : ℕ) : String :=
  dir ++ "/trimmed_" ++ toString i ++ ".mp4"

/-- `path.join(sessionTempDir, 'forward_i.mp4')` -/
def forwardPath (dir : String) (i : ℕ) : String :=
  dir ++ "/forward_" ++ toString i ++ ".mp4"

/-- `path.join(sessionTempDir, 'reverse_i.mp4')` -/
def reversePath (dir : String) (i : ℕ) : String :=
  dir ++ "/reverse_" ++ toString i ++ ".mp4"

/-- `path.join(sessionTempDir, 'concat_i.mp4')` -/
def concatPath (dir : String) (i : ℕ) : String :=
  dir ++ "/concat_" ++ toString i ++ ".mp4"

/-- `path.join(sessionTempDir, 'concat_list_i.txt')` -/
def concatListPath (dir : String) (i : ℕ) : String :=
  dir ++ "/concat_list_" ++ toString i ++ ".txt"

/-- The steps issued for segment `i`: if the assigned clip is at least as
long as the target interval, one direct `[0, duration)` trim; otherwise
the boomerang path: forward render of the whole clip, reverse of that
forward output, concat of forward followed by reverse, trim of the
concatenation to `[0, duration)`, then removal of the four
intermediates. -/
def renderSegment (dir : String) (i : ℕ) (inputPath : String)
    (clipDuration targetDuration : ℚ) : List RenderStep :=
  if targetDuration ≤ clipDuration then
    [.trim inputPath (trimmedPath dir i) 0 targetDuration]
  else
    [.encodeFull inputPath (forwardPath dir i),
     .reverseAV (forwardPath dir i) (reversePath dir i),
     .writeList (concatListPath dir i) [forwardPath dir i, reversePath dir i],
     .concatFiles (concatListPath dir i) (concatPath dir i),
     .trim (concatPath dir i) (trimmedPath dir i) 0 targetDuration,
     .removeFile (forwardPath dir i),
     .removeFile (reversePath dir i),
     .removeFile (concatPath dir i),
     .removeFile (concatListPath dir i)]

/-- Is a step a reverse (doubling) pass? -/
def isReverseStep : RenderStep → Bool
  | .reverseAV _ _ => true
  | _ => false

/-- **C3** A clip strictly shorter than its target interval takes the
boomerang path — forward render of the entire clip, a reverse of that
forward output, concat of forward then reverse, a `[0, target)` trim of
the concatenation, then removal of the forward, reverse, concat and list
intermediates — with exactly one doubling (reverse) pass; a clip at least
as long as the target is trimmed to `[0, target)` directly. -/
theorem c3_segment_renderer (dir inputPath : String) (i : ℕ)
    (clipDuration targetDuration : ℚ) :
    (clipDuration < targetDuration →
      renderSegment dir i inputPath clipDuration targetDuration =
        [.encodeFull inputPath (forwardPath dir i),
         .reverseAV (forwardPath dir i) (reversePath dir i),
         .writeList (concatListPath dir i)
           [forwardPath dir i, reversePath dir i],
         .concatFiles (concatListPath dir i) (concatPath dir i),
         .trim (concatPath dir i) (trimmedPath dir i) 0 targetDuration,
         .removeFile (forwardPath dir i),
         .removeFile (reversePath dir i),
         .removeFile (concatPath dir i),
         .removeFile (concatListPath dir i)] ∧
      ((renderSegment dir i inputPath clipDuration targetDuration).filter
        isReverseStep).length = 1) ∧
    (targetDuration ≤ clipDuration →
      renderSegment dir i inputPath clipDuration targetDuration =
        [.trim inputPath (trimmedPath dir i) 0 targetDuration]) := by
  constructor
  · intro hlt
    have hcond : ¬ targetDuration ≤ clipDuration := not_le.mpr hlt
    constructor
    · rw [renderSegment, if_neg hcond]
    · rw [renderSegment, if_neg hcond]
      simp [isReverseStep, List.filter]
  · intro hge
    rw [renderSegment, if_pos hge]

/-- Witness for C3: at clip duration `1` and target `2` the boomerang
path is taken with one reverse pass; at clip duration `5` and target `2`
the direct trim is taken. -/
theorem c3_segment_renderer_witness :
    ((1:ℚ) < 2 ∧
      (renderSegment "tmp/s" 0 "in.mp4" 1 2 =
        [.encodeFull "in.mp4" (forwardPath "tmp/s" 0),
         .reverseAV (forwardPath "tmp/s" 0) (reversePath "tmp/s" 0),
         .writeList (concatListPath "tmp/s" 0)
           [forwardPath "tmp/s" 0, reversePath "tmp/s" 0],
         .concatFiles (concatListPath "tmp/s" 0) (concatPath "tmp/s" 0),
         .trim (concatPath "tmp/s" 0) (trimmedPath "tmp/s" 0) 0 2,
         .removeFile (forwardPath "tmp/s" 0),
         .removeFile (reversePath "tmp/s" 0),
         .removeFile (concatPath "tmp/s" 0),
         .removeFile (concatListPath "tmp/s" 0)] ∧
      ((renderSegment "tmp/s" 0 "in.mp4" 1 2).filter isReverseStep).length
        = 1)) ∧
    ((2:ℚ) ≤ 5 ∧
      renderSegment "tmp/s" 1 "in2.mp4" 5 2 =
        [.trim "in2.mp4" (trimmedPath "tmp/s" 1) 0 2]) := by
  refine ⟨⟨by norm_num, (c3_segment_renderer "tmp/s" "in.mp4" 0 1 2).1
    (by norm_num)⟩, ⟨by norm_num, (c3_segment_renderer "tmp/s" "in2.mp4" 1 5 2).2
    (by norm_num)⟩⟩

end VideoEditor

namespace VideoEditor

/-! ## Validation step (`/validate-videos`) -/

/-- Outcome of the external per-file work, passed in as data: `err`
models any exception raised inside the per-file `try` block (unreadable
file via `fs.access`, ffprobe failure, standardization failure) with its
message; `ok` models a successful probe with whether a video stream is
present and the container duration. -/
inductive ProbeResult where
  | err (msg : String) : ProbeResult
  | ok (hasVideoStream : Bool) (duration : ℚ) : ProbeResult

/-- One entry of `validationResults` (the identifying fields are
irrelevant to the claims and omitted). -/
structure ValidationResult where
  valid : Bool
  error : Option String
  duration : ℚ
deriving DecidableEq

/-- Per-file validation, mirroring the `try/catch`: a missing video
stream throws `'No video stream found'`; every caught error is recorded
as `valid: false, error: error.message, duration: 0`; a successful probe
is recorded as valid with no error. -/
def validateOne : ProbeResult → ValidationResult
  | .err msg => ⟨false, some msg, 0⟩
  | .ok false _ => ⟨false, some "No video stream found", 0⟩
  | .ok true d => ⟨true, none, d⟩

/-- The `/validate-videos` loop over the whole batch: one result is
pushed per file, and a per-file failure never leaves the loop. -/
def validateVideos (files : List ProbeResult) : List ValidationResult :=
  files.map validateOne

/-- `const availableClips = videoFiles.filter(file => file.valid);` -/
def availableClipsOf (results : List ValidationResult) :
    List ValidationResult :=
  results.filter (·.valid)

/-- **C8** A failing asset is marked invalid with an error message, the
batch is not aborted (every file of the batch contributes exactly one
result, so the result count equals the batch size), and no invalid asset
survives the `availableClips` filter offered to the assignment step. -/
theorem c8_validation_isolation (files : List ProbeResult) :
    (validateVideos files).length = files.length ∧
    (∀ f ∈ files, validateOne f ∈ validateVideos files) ∧
    (∀ r ∈ validateVideos files, r.valid = false → ∃ msg, r.error = some msg) ∧
    (∀ r ∈ availableClipsOf (validateVideos files), r.valid = true) := by
  refine ⟨List.length_map _ _, ?_, ?_, ?_⟩
  · intro f hf
    exact List.mem_map_of_mem validateOne hf
  · intro r hr hinvalid
    obtain ⟨f, _, rfl⟩ := List.mem_map.mp hr
    cases f with
    | err msg => exact ⟨msg, rfl⟩
    | ok hasVideo d =>
      cases hasVideo with
      | false => exact ⟨"No video stream found", rfl⟩
      | true => exact absurd hinvalid (by simp [validateOne])
  · intro r hr
    have := List.mem_filter.mp hr
    simpa using this.2

/-- Witness for C8: a batch with one unreadable file, one good file and
one file without a video stream. -/
theorem c8_validation_isolation_witness :
    (validateVideos [.err "boom", .ok true 5, .ok false 3]).length
      = ([ProbeResult.err "boom", .ok true 5, .ok false 3]).length ∧
    (ProbeResult.err "boom" ∈ [ProbeResult.err "boom", .ok true 5, .ok false 3] ∧
      validateOne (.err "boom")
        ∈ validateVideos [.err "boom", .ok true 5, .ok false 3]) ∧
    (validateOne (.err "boom")
        ∈ validateVideos [.err "boom", .ok true 5, .ok false 3] ∧
      (validateOne (.err "boom")).valid = false ∧
      ∃ msg, (validateOne (.err "boom")).error = some msg) ∧
    (validateOne (.ok true 5)
        ∈ availableClipsOf (validateVideos [.err "boom", .ok true 5, .ok false 3]) ∧
      (validateOne (.ok true 5)).valid = true) := by
  have h := c8_validation_isolation [.err "boom", .ok true 5, .ok false 3]
  have hmem : ProbeResult.err "boom"
      ∈ [ProbeResult.err "boom", .ok true 5, .ok false 3] := by
    simp
  have hmem1 : validateOne (.err "boom")
      ∈ validateVideos [.err "boom", .ok true 5, .ok false 3] :=
    h.2.1 _ hmem
  have hmem2 : validateOne (.ok true 5)
      ∈ availableClipsOf (validateVideos [.err "boom", .ok true 5, .ok false 3]) := by
    simp [validateVideos, validateOne, availableClipsOf]
  exact ⟨h.1, ⟨hmem, hmem1⟩,
    ⟨hmem1, rfl, h.2.2.1 _ hmem1 rfl⟩, ⟨hmem2, h.2.2.2 _ hmem2⟩⟩

/-! ## Workspace cleanup (`/process-videos` handler tail) -/

/-- Observable actions of the `/process-videos` handler after the
pipeline body. -/
inductive ServerAction where
  | removeWorkspace : ServerAction
  | respondSuccess : ServerAction
  | broadcastStatus (msg : String) : ServerAction
  | respondError (msg : String) : ServerAction
deriving DecidableEq

/-- The tail of the `/process-videos` handler as a function of the
pipeline outcome: the `try` block ends with
`await fs.rm(sessionTempDir, { recursive: true, force: true })` followed
by the success response; the `catch` block broadcasts the error status
and sends the 500 response. -/
def processVideosFinish : Except String Unit → List ServerAction
  | .ok _ => [.removeWorkspace, .respondSuccess]
  | .error msg =>
      [.broadcastStatus ("❌ Error: " ++ msg),
       .respondError ("Failed to process videos: " ++ msg)]

/-- **C5 counterexample** On the failure exit path (for example the
assignment error) the handler surfaces the failure without removing the
per-session workspace directory: the claimed guaranteed cleanup on every
failure path does not hold. -/
theorem c5_no_cleanup_on_failure :
    ServerAction.removeWorkspace ∉
      processVideosFinish
        (.error "No suitable clip available for beat duration") := by
  simp [processVideosFinish]

/-- **C5 (amended)** The workspace directory is removed on the success
exit path (before the success response); on every failure exit path the
error is surfaced without removing the directory. -/
theorem c5_cleanup_success_only (msg : String) :
    (processVideosFinish (.ok ())
      = [.removeWorkspace, .respondSuccess]) ∧
    ServerAction.removeWorkspace ∉ processVideosFinish (.error msg) := by
  constructor
  · rfl
  · simp [processVideosFinish]

/-! ## Progress reporter percents -/

/-- `const progressPercent = ((i + 1) / videoFiles.length) * 100;`
(validation phase), with `k = i + 1` completed units of `total`. -/
def validationPercent (total k : ℕ) : ℚ := ((k : ℚ) / (total : ℚ)) * 100

/-- `const trimmingPercent = ((i + 1) / totalClips) * 80;` (processing
phase, trim loop), with `k = i + 1` completed units of `total`. -/
def trimmingPercent (total k : ℕ) : ℚ := ((k : ℚ) / (total : ℚ)) * 80

/-- **C7 counterexample** In the processing (trim) phase, after unit 2 of
4 the emitted phase-local percent is 40, not the claimed
`100*k/total = 50`. -/
theorem c7_trim_percent_not_100k :
    trimmingPercent 4 2 = 40 ∧ 100 * (2 : ℚ) / 4 = 50 ∧
      trimmingPercent 4 2 ≠ 100 * (2 : ℚ) / 4 := by
  norm_num [trimmingPercent]

/-- **C7 (amended)** After unit `k` of `total`, the validation phase
emits exactly `100*k/total`, while the processing (trim) phase emits
exactly `80*k/total` (the trim loop is scaled to 80% of its phase). -/
theorem c7_phase_percents (total k : ℕ) :
    validationPercent total k = 100 * (k : ℚ) / (total : ℚ) ∧
    trimmingPercent total k = 80 * (k : ℚ) / (total : ℚ) := by
  constructor
  · rw [validationPercent]; ring
  · rw [trimmingPercent]; ring

end VideoEditor

namespace VideoEditor

/-- The `overallPercent` values of the `progress-update` events emitted
by one `/process-videos` session, in emission order: `50` before the trim
loop, `50 + trimmingPercent / 2` after each trimmed segment, `95` after
concatenation, `100` after the final mux. -/
def processOverallPercents (totalClips : ℕ) : List ℚ :=
  50 :: (((List.range totalClips).map
    (fun k => 50 + trimmingPercent totalClips (k + 1) / 2)) ++ [95, 100])

/-- **C10** The overall percents of one `/process-videos` session never
decrease: 50 at phase start, `50 + 40*(k/totalClips)` after segment `k`
(at most 90), then 95 and finally 100. -/
theorem c10_overall_percent_monotone (n : ℕ) (hn : 0 < n) :
    List.Chain' (· ≤ ·) (processOverallPercents n) ∧
    (∀ k, k < n → 50 + trimmingPercent n (k + 1) / 2
      = 50 + 40 * (((k : ℚ) + 1) / (n : ℚ))) ∧
    (∀ k, k < n → 50 + trimmingPercent n (k + 1) / 2 ≤ 90) := by
  have hnq : (0 : ℚ) < (n : ℚ) := by exact_mod_cast hn
  have hbound : ∀ k, k < n → 50 + trimmingPercent n (k + 1) / 2 ≤ 90 := by
    intro k hk
    have h1 : ((k : ℚ) + 1) / (n : ℚ) ≤ 1 := by
      rw [div_le_one hnq]
      exact_mod_cast Nat.succ_le_of_lt hk
    have h2 : trimmingPercent n (k + 1) ≤ 80 := by
      rw [trimmingPercent]
      calc ((k + 1 : ℕ) : ℚ) / (n : ℚ) * 80
          = (((k : ℚ) + 1) / (n : ℚ)) * 80 := by push_cast; ring
        _ ≤ 1 * 80 := by
            exact mul_le_mul_of_nonneg_right h1 (by norm_num)
        _ = 80 := one_mul 80
    linarith
  have hnonneg : ∀ k, (0 : ℚ) ≤ trimmingPercent n (k + 1) / 2 := by
    intro k
    rw [trimmingPercent]
    positivity
  refine ⟨?_, ?_, hbound⟩
  · apply List.Pairwise.chain'
    rw [processOverallPercents]
    refine List.Pairwise.cons ?_ ?_
    · intro a ha
      rcases List.mem_append.mp ha with hmap | htail
      · obtain ⟨k, _, rfl⟩ := List.mem_map.mp hmap
        have := hnonneg k
        linarith
      · simp only [List.mem_cons, List.mem_singleton, List.not_mem_nil,
          or_false] at htail
        rcases htail with rfl | rfl <;> norm_num
    · refine List.pairwise_append.mpr ⟨?_, ?_, ?_⟩
      · rw [List.pairwise_map]
        refine (List.pairwise_lt_range n).imp ?_
        intro a b hab
        have hcast : ((a : ℚ) + 1) ≤ ((b : ℚ) + 1) := by
          have : (a : ℚ) ≤ (b : ℚ) := by exact_mod_cast le_of_lt hab
          linarith
        have : trimmingPercent n (a + 1) ≤ trimmingPercent n (b + 1) := by
          rw [trimmingPercent, trimmingPercent]
          have ha' : ((a + 1 : ℕ) : ℚ) / (n : ℚ) ≤ ((b + 1 : ℕ) : ℚ) / (n : ℚ) := by
            apply div_le_div_of_nonneg_right ?_ (le_of_lt hnq)
            exact_mod_cast Nat.succ_le_succ (le_of_lt hab)
          exact mul_le_mul_of_nonneg_right ha' (by norm_num)
        linarith
      · norm_num
      · intro a hmap b htail
        obtain ⟨k, hk, rfl⟩ := List.mem_map.mp hmap
        have h90 := hbound k (List.mem_range.mp hk)
        simp only [List.mem_cons, List.mem_singleton, List.not_mem_nil,
          or_false] at htail
        rcases htail with rfl | rfl <;> linarith
  · intro k hk
    rw [trimmingPercent]
    push_cast
    ring

/-- Witness for C10 at `totalClips = 4`. -/
theorem c10_overall_percent_monotone_witness :
    0 < 4 ∧
    (List.Chain' (· ≤ ·) (processOverallPercents 4) ∧
      (∀ k, k < 4 → 50 + trimmingPercent 4 (k + 1) / 2
        = 50 + 40 * (((k : ℚ) + 1) / (4 : ℕ))) ∧
      (∀ k, k < 4 → 50 + trimmingPercent 4 (k + 1) / 2 ≤ 90)) :=
  ⟨by norm_num, c10_overall_percent_monotone 4 (by norm_num)⟩

end VideoEditor

namespace VideoEditor

/-! ## Frame-rate evaluation and the conformance check (`/validate-videos`)

The probed `r_frame_rate` string is modelled as its character list.  The
source passes it to JavaScript `eval`, i.e. evaluates it as an arbitrary
expression; we model that call on the arithmetic fragment it acts on for
such inputs: sums of left-associated division chains over decimal
literals (division by zero, which JS maps to `Infinity`, stays outside
the model). -/

/-- Split a character list at every occurrence of `c`; the accumulator
holds the current piece reversed. -/
def splitOnCharAux (c : Char) : List Char → List Char → List (List Char)
  | [], acc => [acc.reverse]
  | x :: xs, acc =>
    if x = c then acc.reverse :: splitOnCharAux c xs []
    else splitOnCharAux c xs (x :: acc)

/-- Split a character list at every occurrence of `c`. -/
def splitOnChar (c : Char) (l : List Char) : List (List Char) :=
  splitOnCharAux c l []

/-- A non-empty all-digit character list read as a decimal natural. -/
def digitsToNat? (l : List Char) : Option ℕ :=
  if l ≠ [] ∧ l.all Char.isDigit then
    some (l.foldl (fun n c => 10 * n + (c.toNat - 48)) 0)
  else none

/-- Value of the tail of a division chain, left-associated onto `acc`. -/
def evalDivChainFrom (acc : ℚ) : List (List Char) → Option ℚ
  | [] => some acc
  | p :: ps =>
    match digitsToNat? p with
    | some n => evalDivChainFrom (acc / (n : ℚ)) ps
    | none => none

/-- Value of one division chain `a/b/c…` as JS evaluates it. -/
def evalDivChain : List (List Char) → Option ℚ
  | [] => none
  | p :: ps =>
    match digitsToNat? p with
    | some n => evalDivChainFrom (n : ℚ) ps
    | none => none

/-- Value of a sum of division chains. -/
def evalSumChain : List (List Char) → Option ℚ
  | [] => none
  | [t] => evalDivChain (splitOnChar '/' t)
  | t :: ts =>
    match evalDivChain (splitOnChar '/' t), evalSumChain ts with
    | some q, some r => some (q + r)
    | _, _ => none

/-- Models `eval(videoStream.r_frame_rate)`: the probed string is
evaluated as a JavaScript *expression* (here on the arithmetic fragment
of sums of division chains), not parsed as a ratio. -/
def evalFrameRate (l : List Char) : Option ℚ :=
  evalSumChain (splitOnChar '+' l)

/-- The evaluation the spec demands, stated from its words: split the
string into `numerator/denominator`, read both as numbers and divide;
anything that is not exactly a ratio is rejected. -/
def specRatioEval (l : List Char) : Option ℚ :=
  match splitOnChar '/' l with
  | [a, b] =>
    match digitsToNat? a, digitsToNat? b with
    | some n, some den => some ((n : ℚ) / (den : ℚ))
    | _, _ => none
  | _ => none

/-- The probed facts of the primary video stream that `needsReencode`
inspects. -/
structure VideoStreamInfo where
  width : ℤ
  height : ℤ
  rFrameRate : List Char
  codecName : String

/-- The target encode spec. -/
structure TargetFormat where
  width : ℤ
  height : ℤ
  frameRate : ℚ
  videoCodec : String
  audioCodec : String

/-- The conformance check: mirrors
`videoStream.width !== targetFormat.width || … ||
eval(videoStream.r_frame_rate) !== targetFormat.frameRate || …`,
with the optional audio-codec clause guarded on stream presence. -/
def needsReencode (v : VideoStreamInfo) (audioCodec? : Option String)
    (t : TargetFormat) : Bool :=
  decide (v.width ≠ t.width) || decide (v.height ≠ t.height) ||
  decide (evalFrameRate v.rFrameRate ≠ some t.frameRate) ||
  decide (v.codecName ≠ t.videoCodec) ||
  (match audioCodec? with
   | some a => decide (a ≠ t.audioCodec)
   | none => false)

/-! ### Helper lemmas about the split -/

/-- Splitting at a character absent from the list returns the list
whole. -/
theorem splitOnCharAux_of_not_mem (c : Char) :
    ∀ (l acc : List Char), c ∉ l →
      splitOnCharAux c l acc = [acc.reverse ++ l] := by
  intro l
  induction l with
  | nil =>
    intro acc _
    simp [splitOnCharAux]
  | cons x xs ih =>
    intro acc hmem
    have hx : x ≠ c := fun h => hmem (h ▸ List.mem_cons_self x xs)
    rw [splitOnCharAux, if_neg hx, ih (x :: acc)
      (fun h => hmem (List.mem_cons_of_mem x h))]
    simp

/-- Every character of the input that is not the separator lands in one
of the produced pieces. -/
theorem mem_piece_of_splitOnCharAux (c a : Char) :
    ∀ (l acc : List Char), (a ∈ acc ∨ (a ∈ l ∧ a ≠ c)) →
      ∃ part ∈ splitOnCharAux c l acc, a ∈ part := by
  intro l
  induction l with
  | nil =>
    intro acc h
    rcases h with h | ⟨h, _⟩
    · exact ⟨acc.reverse, by simp [splitOnCharAux], by simpa using h⟩
    · cases h
  | cons x xs ih =>
    intro acc h
    by_cases hx : x = c
    · rw [splitOnCharAux, if_pos hx]
      rcases h with h | ⟨h, hne⟩
      · exact ⟨acc.reverse, List.mem_cons_self _ _, by simpa using h⟩
      · rcases List.mem_cons.mp h with rfl | h'
        · exact absurd hx hne
        · obtain ⟨part, hp, hap⟩ := ih [] (Or.inr ⟨h', hne⟩)
          exact ⟨part, List.mem_cons_of_mem _ hp, hap⟩
    · rw [splitOnCharAux, if_neg hx]
      rcases h with h | ⟨h, hne⟩
      · exact ih (x :: acc) (Or.inl (List.mem_cons_of_mem x h))
      · rcases List.mem_cons.mp h with rfl | h'
        · exact ih (a :: acc) (Or.inl (List.mem_cons_self a acc))
        · exact ih (x :: acc) (Or.inr ⟨h', hne⟩)

/-- A successfully parsed digit block contains no `+`. -/
theorem plus_not_mem_of_digits (l : List Char) (n : ℕ)
    (h : digitsToNat? l = some n) : '+' ∉ l := by
  rw [digitsToNat?] at h
  split at h
  · rename_i hcond
    intro hmem
    have := hcond.2
    rw [List.all_eq_true] at this
    have hplus := this '+' hmem
    simp [Char.isDigit] at hplus
  · cases h

end VideoEditor

namespace VideoEditor

/-- **C6 counterexample** The conformance check evaluates the probed
frame-rate string by general (unsafe) expression evaluation, not as a
ratio: the non-ratio arithmetic string `12+12` evaluates to `24` and is
accepted as conformant with target rate 24, while a true ratio
evaluation rejects it. -/
theorem c6_eval_not_ratio_only :
    evalFrameRate ['1', '2', '+', '1', '2'] = some 24 ∧
    specRatioEval ['1', '2', '+', '1', '2'] = none ∧
    needsReencode ⟨1920, 1088, ['1', '2', '+', '1', '2'], "h264"⟩
      (some "aac") ⟨1920, 1088, 24, "h264", "aac"⟩ = false := by
  have h1 : evalFrameRate ['1', '2', '+', '1', '2'] = some 24 := by
    rw [show evalFrameRate ['1', '2', '+', '1', '2']
        = some (((12 : ℕ) : ℚ) + ((12 : ℕ) : ℚ)) from rfl]
    norm_num
  have h2 : specRatioEval ['1', '2', '+', '1', '2'] = none := rfl
  refine ⟨h1, h2, ?_⟩
  simp [needsReencode, h1]

/-- **C6 (amended)** The prober evaluates `r_frame_rate` by handing the
string to JavaScript `eval` — unsafe general expression evaluation — and
on every well-formed rational string `a/b` the value so obtained agrees
with the true numeric ratio. -/
theorem c6_eval_agrees_on_ratios (l : List Char) (q : ℚ) :
    specRatioEval l = some q → evalFrameRate l = some q := by
  intro h
  rw [specRatioEval] at h
  cases hsplit : splitOnChar '/' l with
  | nil => rw [hsplit] at h; cases h
  | cons a rest =>
    cases rest with
    | nil => rw [hsplit] at h; cases h
    | cons b rest2 =>
      cases rest2 with
      | cons c rest3 => rw [hsplit] at h; cases h
      | nil =>
        rw [hsplit] at h
        dsimp only at h
        cases hna : digitsToNat? a with
        | none =>
          rw [hna] at h
          exact absurd h (by simp)
        | some n =>
          cases hnb : digitsToNat? b with
          | none =>
            rw [hna, hnb] at h
            exact absurd h (by simp)
          | some den =>
            rw [hna, hnb] at h
            dsimp only at h
            injection h with h
            have hplus : '+' ∉ l := by
              intro hmem
              obtain ⟨part, hp, hap⟩ :=
                mem_piece_of_splitOnCharAux '/' '+' l []
                  (Or.inr ⟨hmem, by decide⟩)
              rw [show splitOnCharAux '/' l [] = splitOnChar '/' l from rfl,
                hsplit] at hp
              rcases List.mem_cons.mp hp with rfl | hp'
              · exact plus_not_mem_of_digits part n hna hap
              · rcases List.mem_cons.mp hp' with rfl | hp''
                · exact plus_not_mem_of_digits part den hnb hap
                · cases hp''
            have hone : splitOnChar '+' l = [l] := by
              rw [splitOnChar, splitOnCharAux_of_not_mem '+' l [] hplus]
              simp
            rw [evalFrameRate, hone]
            show evalSumChain [l] = some q
            rw [show evalSumChain [l] = evalDivChain (splitOnChar '/' l)
                from rfl,
              hsplit]
            rw [show evalDivChain [a, b]
                = (match digitsToNat? a with
                   | some n => evalDivChainFrom (n : ℚ) [b]
                   | none => none) from rfl,
              hna]
            show evalDivChainFrom (n : ℚ) [b] = some q
            rw [show evalDivChainFrom (n : ℚ) [b]
                = (match digitsToNat? b with
                   | some m => evalDivChainFrom ((n : ℚ) / (m : ℚ)) []
                   | none => none) from rfl,
              hnb]
            show some ((n : ℚ) / (den : ℚ)) = some q
            rw [h]

/-- Witness for C6 (amended) at the reduced rational `24000/1001`. -/
theorem c6_eval_agrees_on_ratios_witness :
    specRatioEval ['2', '4', '0', '0', '0', '/', '1', '0', '0', '1']
      = some ((24000 : ℚ) / 1001) ∧
    evalFrameRate ['2', '4', '0', '0', '0', '/', '1', '0', '0', '1']
      = some ((24000 : ℚ) / 1001) := by
  have h : specRatioEval ['2', '4', '0', '0', '0', '/', '1', '0', '0', '1']
      = some ((24000 : ℚ) / 1001) := by
    rw [show specRatioEval ['2', '4', '0', '0', '0', '/', '1', '0', '0', '1']
        = some (((24000 : ℕ) : ℚ) / ((1001 : ℕ) : ℚ)) from rfl]
    norm_num
  exact ⟨h, c6_eval_agrees_on_ratios _ _ h⟩

end VideoEditor

